import Mathlib

/-!
Verification of the wasm-dwarf-parser pipeline: a shallow embedding of
`src/path.rs` (path normalization), `src/wasm.rs` (module section scanning)
and `src/main.rs` (the line-table resolver), together with theorems about
the properties claimed of them.

Modelling conventions:
* Rust strings are `List Char`; `str::replace` is specialised to the two
  patterns actually used by `Path::new` (`"\\\\"` and `"\\"`).
* Byte buffers are `List Nat` (each element `< 256`).
* Machine integers are `Nat`; the `u32` conversions of `Resolver::new`
  panic when a value does not fit, which is modelled by explicit
  `2 ^ 32` bounds checks feeding a `PanicKind` error.
* The DWARF decoding capability (gimli) is external to the repository:
  compilation units, their language attribute and their line-program rows
  are taken as already-decoded inputs (`Unit'`, `Row`), exactly the
  interface the resolver consumes (`row.address()`, `row.end_sequence()`,
  `row.file(header)`, `row.line()`, `row.column()`, the file entry's
  directory and path-name strings).
* Rust `Vec::sort_by_key` is a stable sort; it is modelled by
  `List.insertionSort` (stable, and reducible by the kernel).
  `Vec::dedup_by_key` keeps the first element of each run of
  consecutive elements with equal keys; it is modelled by `dedupByKey`.
* Rust panics (`Option::unwrap`, arithmetic underflow) are distinguished
  from `Result` errors: `main` catches only the `Result` channel
  (`run().unwrap_or_else`), so a panic aborts the process without
  emitting the failure document (`RunOutcome.panicked`).
-/

deriving instance DecidableEq for Except

namespace WD

/-! ### Path normalizer (`src/path.rs`) -/

/-- Specialisation of Rust `str::replace("\\\\", "/")` (leftmost-first,
non-overlapping) to character lists. -/
def replaceDouble : List Char → List Char
  | [] => []
  | [c] => [c]
  | c :: c2 :: s =>
    if c = '\\' ∧ c2 = '\\' then '/' :: replaceDouble s
    else c :: replaceDouble (c2 :: s)

/-- Specialisation of Rust `str::replace("\\", "/")` to character lists. -/
def replaceSingle : List Char → List Char
  | [] => []
  | c :: s => (if c = '\\' then '/' else c) :: replaceSingle s

/-- `Path::new`: replace `\\` sequences and then `\` with `/` in the seed. -/
def pathNew (s : List Char) : List Char :=
  replaceSingle (replaceDouble s)

/-- Rust `str::contains(pat)`: substring containment. -/
def hasSub (pat : List Char) : List Char → Bool
  | [] => pat.isEmpty
  | c :: s => pat.isPrefixOf (c :: s) || hasSub pat s

/-- `Path::push`: an absolute fragment (leading `/`) or a URI fragment
(containing `://`) replaces the accumulated path; otherwise the fragment is
appended, inserting a `/` separator when the path does not end in one. -/
def pathPush (p1 p2 : List Char) : List Char :=
  if ['/'].isPrefixOf p2 || hasSub [':', '/', '/'] p2 then p2
  else if p1.getLast? = some '/' then p1 ++ p2
  else p1 ++ '/' :: p2

/-! ### WebAssembly section scanner (`src/wasm.rs`) -/

/-- `gimli::ColumnType`: a 1-based numeric column or the left-edge
sentinel. -/
inductive ColumnType where
  | Column (c : Nat)
  | LeftEdge
deriving DecidableEq

/-- The per-row file entry as consumed by the resolver: the resolved
directory attribute string (when present) and the path-name string. -/
structure FileInfo where
  directory : Option (List Char)
  path_name : List Char
deriving DecidableEq

/-- One row of a line-number program, as reported by the external DWARF
capability. -/
structure Row where
  address : Nat
  end_sequence : Bool
  file : Option FileInfo
  line : Option Nat
  column : ColumnType
deriving DecidableEq

/-- A compilation unit as consumed by the resolver: the root DIE's
`DW_AT_language` attribute (`none` when absent or not a language value)
and the line-number program's rows (`none` when the unit has no line
program). -/
structure Unit' where
  langAttr : Option Nat
  lineProgram : Option (List Row)
deriving DecidableEq

/-- Language extraction (`src/main.rs` lines 94-105): the attribute value
when it is a language code, 0 otherwise. -/
def unitLang (u : Unit') : Nat :=
  match u.langAttr with
  | some l => l
  | none => 0

/-- `gimli::constants::DW_LANG_Rust.0`. -/
def dwLangRust : Nat := 28

/-- `Pos`: zero-based line and column, ordered line first then column. -/
structure Pos where
  line : Nat
  column : Nat
deriving DecidableEq

/-- `LocationEntry`: module-absolute address plus position. -/
structure LocationEntry where
  addr : Nat
  pos : Pos
deriving DecidableEq

/-- `FileEntries`: the language recorded when the file key was first
created, plus that file's locations. -/
structure FileEntries where
  language : Nat
  entries : List LocationEntry
deriving DecidableEq

/-- `Resolver`: the global location table and the per-file table in
first-seen key order (`IndexMap`). -/
structure Resolver where
  locations : List LocationEntry
  locations_by_filename : List (List Char × FileEntries)
deriving DecidableEq

/-- `Resolver::default()`. -/
def Resolver.empty : Resolver := ⟨[], []⟩

/-- `FuncState`. -/
inductive FuncState where
  | Start
  | Ignored
  | Normal
deriving DecidableEq

/-- The panics that the row loop of `Resolver::new` can raise: `unwrap` of
`line.checked_sub(1)` on line 0, u64-to-u32 conversion failures, and the
`column -= 1` underflow on a zero column. -/
inductive PanicKind where
  | lineIsZero
  | lineTooLarge
  | columnIsZero
  | columnTooLarge
deriving DecidableEq

/-- `2 ^ 32`, the first value that does not fit in `u32`. -/
def u32Max : Nat := 2 ^ 32

/-- The position computation of the row loop (`src/main.rs` lines
134-154), for a row whose `line()` is `some l`: `l - 1` (panicking on 0
and on u32 overflow), and the column zero-based with the Rust +1
correction. -/
def computePos (isRust : Bool) (l : Nat) (col : ColumnType) : Except PanicKind Pos :=
  if l = 0 then .error .lineIsZero
  else if u32Max ≤ l - 1 then .error .lineTooLarge
  else
    match col with
    | .LeftEdge => .ok { line := l - 1, column := 0 }
    | .Column c =>
      if c = 0 then .error .columnIsZero
      else if u32Max ≤ c - 1 + (if isRust then 1 else 0) then .error .columnTooLarge
      else .ok { line := l - 1, column := c - 1 + (if isRust then 1 else 0) }

/-- The canonical file key of a row (`src/main.rs` lines 158-170): a path
seeded with `"."`, re-seeded with the directory attribute when present,
then pushed with the raw path-name string. -/
def rowPath (dir : Option (List Char)) (name : List Char) : List Char :=
  pathPush (pathNew (dir.getD ['.'])) name

/-- The `IndexMap::entry` update (`src/main.rs` lines 172-186): push the
location onto the existing file entry, or append a fresh entry carrying
the current unit's language. -/
def updateFile : List (List Char × FileEntries) → List Char → Nat → LocationEntry →
    List (List Char × FileEntries)
  | [], k, lang, loc => [(k, ⟨lang, [loc]⟩)]
  | kv :: rest, k, lang, loc =>
    if kv.1 = k then (kv.1, ⟨kv.2.language, kv.2.entries ++ [loc]⟩) :: rest
    else kv :: updateFile rest k lang loc

/-- Key lookup in the insertion-ordered per-file table. -/
def lookupFile : List (List Char × FileEntries) → List Char → Option FileEntries
  | [], _ => none
  | kv :: rest, k => if kv.1 = k then some kv.2 else lookupFile rest k

/-- Appending one location to both resolver tables (`src/main.rs` lines
180-186). -/
def recordRow (lang : Nat) (res : Resolver) (key : List Char) (loc : LocationEntry) : Resolver :=
  { locations := res.locations ++ [loc],
    locations_by_filename := updateFile res.locations_by_filename key lang loc }

/-- One iteration of the row loop (`src/main.rs` lines 113-191): resolve
the `Start` state from the row's address, discard rows in `Ignored` state
(returning to `Start` on `end_sequence`), skip rows without file or line,
record the rest, and return to `Start` after a recorded `end_sequence`
row. -/
def stepRow (isRust : Bool) (lang codeOff : Nat) (s : FuncState × Resolver) (row : Row) :
    Except PanicKind (FuncState × Resolver) :=
  let st :=
    match s.1 with
    | .Start => if row.address = 0 then FuncState.Ignored else FuncState.Normal
    | st => st
  match st with
  | .Ignored => .ok (if row.end_sequence then .Start else .Ignored, s.2)
  | st =>
    match row.file with
    | none => .ok (st, s.2)
    | some f =>
      match row.line with
      | none => .ok (st, s.2)
      | some l =>
        match computePos isRust l row.column with
        | .error k => .error k
        | .ok pos =>
          let res := recordRow lang s.2 (rowPath f.directory f.path_name)
            { addr := codeOff + row.address, pos := pos }
          .ok (if row.end_sequence then .Start else st, res)

/-- The row loop over one unit's rows. -/
def runRows (isRust : Bool) (lang codeOff : Nat) (st : FuncState) (res : Resolver)
    (rows : List Row) : Except PanicKind (FuncState × Resolver) :=
  rows.foldlM (stepRow isRust lang codeOff) (st, res)

/-- Processing of one compilation unit (`src/main.rs` lines 86-192): units
without a line program are skipped; otherwise the row loop runs from
`Start` with `is_rust` decided once from the unit's language. -/
def runUnit (codeOff : Nat) (res : Resolver) (u : Unit') : Except PanicKind Resolver :=
  match u.lineProgram with
  | none => .ok res
  | some rows =>
    match runRows (unitLang u == dwLangRust) (unitLang u) codeOff .Start res rows with
    | .error k => .error k
    | .ok s => .ok s.2

/-- `Vec::dedup_by_key` kernel: `x` is the last kept element; drop each
following element whose key equals the kept one. -/
def dedupRun {α κ : Type} [DecidableEq κ] (k : α → κ) (x : α) : List α → List α
  | [] => [x]
  | y :: ys => if k x = k y then dedupRun k x ys else x :: dedupRun k y ys

/-- `Vec::dedup_by_key`: keep the first element of each run of consecutive
elements with equal keys. -/
def dedupByKey {α κ : Type} [DecidableEq κ] (k : α → κ) : List α → List α
  | [] => []
  | x :: xs => dedupRun k x xs

/-- The key order of `locations.sort_by_key(|loc| loc.addr)`. -/
def addrLe (a b : LocationEntry) : Prop := a.addr ≤ b.addr

instance : DecidableRel addrLe := fun a b => inferInstanceAs (Decidable (a.addr ≤ b.addr))

instance : IsTotal LocationEntry addrLe := ⟨fun a b => Nat.le_total a.addr b.addr⟩

instance : IsTrans LocationEntry addrLe := ⟨fun _ _ _ h1 h2 => Nat.le_trans h1 h2⟩

/-- The derived lexicographic order of `Pos` (line first, then column), as
used by `entries.sort_by_key(|loc| loc.pos)`. -/
def posLe (p q : Pos) : Prop :=
  p.line < q.line ∨ (p.line = q.line ∧ p.column ≤ q.column)

instance : DecidableRel posLe := fun p q =>
  inferInstanceAs (Decidable (p.line < q.line ∨ (p.line = q.line ∧ p.column ≤ q.column)))

/-- `posLe` lifted to location entries. -/
def entryPosLe (a b : LocationEntry) : Prop := posLe a.pos b.pos

instance : DecidableRel entryPosLe := fun a b => inferInstanceAs (Decidable (posLe a.pos b.pos))

instance : IsTotal LocationEntry entryPosLe :=
  ⟨fun a b => by unfold entryPosLe posLe; omega⟩

instance : IsTrans LocationEntry entryPosLe :=
  ⟨fun a b c h1 h2 => by unfold entryPosLe posLe at *; omega⟩

/-- The post-pass of `Resolver::new`: the global table is stably sorted by
address and deduplicated by address; each file's table is stably sorted by
position and deduplicated by position. -/
def postPass (res : Resolver) : Resolver :=
  { locations := dedupByKey (fun loc => loc.addr)
      (List.insertionSort addrLe res.locations),
    locations_by_filename := res.locations_by_filename.map fun kv =>
      (kv.1, ⟨kv.2.language,
        dedupByKey (fun loc => loc.pos) (List.insertionSort entryPosLe kv.2.entries)⟩) }

/-! ### Top-level run (`Resolver::new`, `source_files`, `run`, `main`) -/

/-- `SourceFile`: one grouped output record. -/
structure SourceFile' where
  file : List Char
  language : Nat
  lines : List (List Nat)
deriving DecidableEq

/-- `Resolver::source_files`: one record per file in first-seen order,
each row flattened to an `[address, line, column]` triple in table
order. -/
def sourceFiles (res : Resolver) : List SourceFile' :=
  res.locations_by_filename.map fun kv =>
    ⟨kv.1, kv.2.language, kv.2.entries.map fun loc => [loc.addr, loc.pos.line, loc.pos.column]⟩

theorem posLe_trans {p q r : Pos} (h1 : posLe p q) (h2 : posLe q r) : posLe p r := by
  unfold posLe at *
  omega

theorem posLe_antisymm {p q : Pos} (h1 : posLe p q) (h2 : posLe q p) : p = q := by
  obtain ⟨pl, pc⟩ := p
  obtain ⟨ql, qc⟩ := q
  unfold posLe at *
  simp_all
  omega

theorem find?_eq_head?_filter {α : Type} (p : α → Bool) :
    ∀ l : List α, l.find? p = (l.filter p).head?
  | [] => rfl
  | x :: l => by
    by_cases h : p x
    · rw [List.find?_cons_of_pos _ h, List.filter_cons_of_pos h]
      rfl
    · rw [List.find?_cons_of_neg _ h, List.filter_cons_of_neg h]
      exact find?_eq_head?_filter p l

theorem mem_dedupRun {α κ : Type} [DecidableEq κ] (k : α → κ) :
    ∀ (x : α) (l : List α) (z : α), z ∈ dedupRun k x l → z = x ∨ z ∈ l
  | x, [], z, h => by simpa [dedupRun] using h
  | x, y :: l, z, h => by
    rw [dedupRun] at h
    split at h
    · rcases mem_dedupRun k x l z h with h1 | h1
      · exact Or.inl h1
      · exact Or.inr (List.mem_cons_of_mem _ h1)
    · rcases List.mem_cons.mp h with h1 | h1
      · exact Or.inl h1
      · rcases mem_dedupRun k y l z h1 with h2 | h2
        · exact Or.inr (h2 ▸ List.mem_cons_self _ _)
        · exact Or.inr (List.mem_cons_of_mem _ h2)

theorem dedupRun_filter_head {α κ : Type} [DecidableEq κ] (k : α → κ) (p : α → Bool)
    (hc : ∀ x y, k x = k y → p x = p y) :
    ∀ (l : List α) (x : α), ((dedupRun k x l).filter p).head? = (((x :: l)).filter p).head?
  | [], x => rfl
  | y :: l, x => by
    rw [dedupRun]
    split
    · rename_i hk
      rw [dedupRun_filter_head k p hc l x]
      have hpy : p y = p x := hc y x (hk.symm)
      by_cases hx : p x
      · rw [List.filter_cons_of_pos hx, List.filter_cons_of_pos hx,
          List.filter_cons_of_pos (hpy.trans hx)]
        rfl
      · rw [List.filter_cons_of_neg hx, List.filter_cons_of_neg hx,
          List.filter_cons_of_neg (show ¬p y = true by rw [hpy]; exact hx)]
    · by_cases hx : p x
      · rw [List.filter_cons_of_pos hx, List.filter_cons_of_pos hx]
        rfl
      · rw [List.filter_cons_of_neg hx, List.filter_cons_of_neg hx]
        exact dedupRun_filter_head k p hc l y

theorem dedupByKey_filter_head {α κ : Type} [DecidableEq κ] (k : α → κ) (p : α → Bool)
    (hc : ∀ x y, k x = k y → p x = p y) (l : List α) :
    ((dedupByKey k l).filter p).head? = (l.filter p).head? := by
  cases l with
  | nil => rfl
  | cons x xs => exact dedupRun_filter_head k p hc xs x

theorem pairwise_dedupRun {α κ : Type} [DecidableEq κ] (k : α → κ) (R : κ → κ → Prop)
    (htrans : ∀ a b c, R a b → R b c → R a c)
    (hanti : ∀ a b, R a b → R b a → a = b) :
    ∀ (l : List α) (x : α), (∀ y ∈ l, R (k x) (k y)) →
      List.Pairwise (fun a b => R (k a) (k b)) l →
      List.Pairwise (fun a b => R (k a) (k b) ∧ k a ≠ k b) (dedupRun k x l)
  | [], x, _, _ => List.pairwise_singleton _ x
  | y :: l, x, h1, h2 => by
    rw [dedupRun]
    split
    · rename_i hk
      exact pairwise_dedupRun k R htrans hanti l x
        (fun z hz => h1 z (List.mem_cons_of_mem _ hz)) (List.Pairwise.of_cons h2)
    · rename_i hk
      refine List.Pairwise.cons ?_ (pairwise_dedupRun k R htrans hanti l y
        (fun z hz => (List.pairwise_cons.mp h2).1 z hz) (List.Pairwise.of_cons h2))
      intro z hz
      rcases mem_dedupRun k y l z hz with h3 | h3
      · subst h3
        exact ⟨h1 z (List.mem_cons_self _ _), hk⟩
      · refine ⟨h1 z (List.mem_cons_of_mem _ h3), ?_⟩
        intro hxz
        exact hk (hanti _ _ (h1 y (List.mem_cons_self _ _))
          (hxz ▸ (List.pairwise_cons.mp h2).1 z h3))

theorem pairwise_dedupByKey {α κ : Type} [DecidableEq κ] (k : α → κ) (R : κ → κ → Prop)
    (htrans : ∀ a b c, R a b → R b c → R a c)
    (hanti : ∀ a b, R a b → R b a → a = b) (l : List α)
    (h : List.Pairwise (fun a b => R (k a) (k b)) l) :
    List.Pairwise (fun a b => R (k a) (k b) ∧ k a ≠ k b) (dedupByKey k l) := by
  cases l with
  | nil => exact List.Pairwise.nil
  | cons x xs =>
    exact pairwise_dedupRun k R htrans hanti xs x
      (fun z hz => (List.pairwise_cons.mp h).1 z hz) (List.Pairwise.of_cons h)

theorem filter_orderedInsert_neg {α : Type} (r : α → α → Prop) [DecidableRel r] (p : α → Bool)
    (a : α) (ha : ¬p a = true) :
    ∀ l : List α, (List.orderedInsert r a l).filter p = l.filter p
  | [] => by rw [List.orderedInsert, List.filter_cons_of_neg ha]
  | b :: l => by
    rw [List.orderedInsert]
    split
    · rw [List.filter_cons_of_neg ha]
    · by_cases hb : p b
      · rw [List.filter_cons_of_pos hb, List.filter_cons_of_pos hb,
          filter_orderedInsert_neg r p a ha l]
      · rw [List.filter_cons_of_neg hb, List.filter_cons_of_neg hb,
          filter_orderedInsert_neg r p a ha l]

theorem filter_orderedInsert_pos {α : Type} (r : α → α → Prop) [DecidableRel r] (p : α → Bool)
    (a : α) (ha : p a = true) (hab : ∀ b, p b = true → r a b) :
    ∀ l : List α, (List.orderedInsert r a l).filter p = a :: l.filter p
  | [] => by rw [List.orderedInsert, List.filter_cons_of_pos ha]
  | b :: l => by
    rw [List.orderedInsert]
    split
    · rw [List.filter_cons_of_pos ha]
    · rename_i hr
      have hb : ¬p b = true := fun h => hr (hab b h)
      rw [List.filter_cons_of_neg hb, List.filter_cons_of_neg hb,
        filter_orderedInsert_pos r p a ha hab l]

theorem filter_insertionSort {α : Type} (r : α → α → Prop) [DecidableRel r] (p : α → Bool)
    (hp : ∀ x y, p x = true → p y = true → r x y) :
    ∀ l : List α, (List.insertionSort r l).filter p = l.filter p
  | [] => rfl
  | a :: l => by
    rw [List.insertionSort]
    by_cases ha : p a
    · rw [filter_orderedInsert_pos r p a ha (fun b hb => hp a b ha hb),
        filter_insertionSort r p hp l, List.filter_cons_of_pos ha]
    · rw [filter_orderedInsert_neg r p a ha,
        filter_insertionSort r p hp l, List.filter_cons_of_neg ha]

/-! ### Claim theorems -/

/-- Claim C1: after the post-pass the global location table is sorted by
module-absolute address strictly ascending (hence at most one entry per
address), and for every address the surviving entry is the
first-encountered recorded entry for that address — the stable sort keeps
equal-address entries in recording order and the dedup keeps the first of
each run. -/
theorem c1_global_table_sorted_dedup_first_wins (res : Resolver) (a : Nat) :
    List.Pairwise (fun x y => x.addr < y.addr) (postPass res).locations ∧
    (postPass res).locations.find? (fun e => e.addr == a) =
      res.locations.find? (fun e => e.addr == a) := by
  constructor
  · have hs : List.Pairwise (fun x y : LocationEntry => x.addr ≤ y.addr)
        (List.insertionSort addrLe res.locations) :=
      List.sorted_insertionSort addrLe res.locations
    have hd := pairwise_dedupByKey (fun e : LocationEntry => e.addr)
      (fun m n => m ≤ n) (fun _ _ _ h1 h2 => Nat.le_trans h1 h2)
      (fun _ _ h1 h2 => Nat.le_antisymm h1 h2) _ hs
    exact hd.imp fun h => Nat.lt_of_le_of_ne h.1 h.2
  · show ((dedupByKey _ _).find? _) = _
    rw [find?_eq_head?_filter, find?_eq_head?_filter,
      dedupByKey_filter_head (fun e : LocationEntry => e.addr) _
        (fun x y h => by simp [h]),
      filter_insertionSort addrLe _
        (fun x y hx hy => by
          have hx' : x.addr = a := by simpa using hx
          have hy' : y.addr = a := by simpa using hy
          show x.addr ≤ y.addr
          omega)]

theorem bind_ok_foldlM {ε σ ρ : Type} (f : σ → ρ → Except ε σ) (s : σ) (l : List ρ) :
    (Except.ok s >>= fun b => List.foldlM f b l) = List.foldlM f s l := rfl

theorem stepRow_ignored (isRust : Bool) (lang off : Nat) (res : Resolver) (row : Row) :
    stepRow isRust lang off (.Ignored, res) row =
      .ok (if row.end_sequence then .Start else .Ignored, res) := rfl

theorem stepRow_start_zero (isRust : Bool) (lang off : Nat) (res : Resolver) (row : Row)
    (h : row.address = 0) :
    stepRow isRust lang off (.Start, res) row =
      .ok (if row.end_sequence then .Start else .Ignored, res) := by
  simp [stepRow, h]

theorem foldl_stepRow_ignored (isRust : Bool) (lang off : Nat) (res : Resolver) :
    ∀ rows : List Row, (∀ r ∈ rows, r.end_sequence = false) →
      List.foldlM (stepRow isRust lang off) (FuncState.Ignored, res) rows =
        .ok (FuncState.Ignored, res)
  | [], _ => rfl
  | r :: rows, h => by
    rw [List.foldlM_cons, stepRow_ignored, h r (List.mem_cons_self _ _)]
    show List.foldlM _ (FuncState.Ignored, res) rows = _
    exact foldl_stepRow_ignored isRust lang off res rows
      fun r hr => h r (List.mem_cons_of_mem _ hr)

/-- Claim C2 counterexample: a row consumed in `Normal` state that carries
the end-of-sequence flag but has no resolvable file entry is skipped by
the `continue` at the file lookup, before the end-of-sequence reset, so
the state stays `Normal` instead of returning to `Start`. -/
theorem c2_counterexample_end_sequence_without_file :
    stepRow false 0 0 (FuncState.Normal, Resolver.empty)
        { address := 5, end_sequence := true, file := none, line := none,
          column := .LeftEdge }
      = .ok (FuncState.Normal, Resolver.empty) ∧
    FuncState.Normal ≠ FuncState.Start :=
  ⟨rfl, by decide⟩

/-- Claim C2 (amended): for every row consumed while the state is `Normal`
that carries the end-of-sequence flag AND has a resolvable file entry and
a line number (so that it is actually processed rather than skipped by the
file/line `continue`s), the state returns to `Start`. -/
theorem c2_normal_end_sequence_resets (isRust : Bool) (lang off : Nat) (res res' : Resolver)
    (st' : FuncState) (row : Row) (f : FileInfo) (l : Nat)
    (hf : row.file = some f) (hl : row.line = some l) (hes : row.end_sequence = true)
    (hok : stepRow isRust lang off (FuncState.Normal, res) row = .ok (st', res')) :
    st' = FuncState.Start := by
  simp only [stepRow, hf, hl, hes, if_true] at hok
  cases hcp : computePos isRust l row.column with
  | error k => rw [hcp] at hok; exact absurd hok (by simp)
  | ok pos =>
    rw [hcp] at hok
    simp only [Except.ok.injEq, Prod.mk.injEq] at hok
    exact hok.1.symm

/-- Claim C2 witness. -/
theorem c2_normal_end_sequence_resets_witness : FuncState.Start = FuncState.Start :=
  c2_normal_end_sequence_resets false 0 0 Resolver.empty
    (recordRow 0 Resolver.empty (rowPath none ['f']) ⟨3, ⟨4, 0⟩⟩)
    FuncState.Start
    { address := 3, end_sequence := true, file := some ⟨none, ['f']⟩,
      line := some 5, column := .LeftEdge }
    ⟨none, ['f']⟩ 5 rfl rfl rfl rfl

/-- Claim C3: a sequence whose first row reports address 0 puts the unit
walk into `Ignored`: no row of that sequence is recorded up to and
including the next end-of-sequence row, and processing of the remaining
rows resumes from `Start` with the resolver state untouched. -/
theorem c3_zero_address_sequence_ignored (isRust : Bool) (lang off : Nat) (res : Resolver)
    (mid : List Row) (e : Row) (rest : List Row) (r0 : Row)
    (h0 : (mid ++ [e]).head? = some r0) (ha : r0.address = 0)
    (hmid : ∀ r ∈ mid, r.end_sequence = false) (he : e.end_sequence = true) :
    runRows isRust lang off .Start res (mid ++ e :: rest) =
      runRows isRust lang off .Start res rest := by
  cases mid with
  | nil =>
    have he0 : e = r0 := by simpa using h0
    subst he0
    rw [List.nil_append, runRows, List.foldlM_cons, stepRow_start_zero _ _ _ _ _ ha, he]
    simp only [if_true, bind_ok_foldlM]
    rfl
  | cons m mid' =>
    have hm0 : m = r0 := by simpa using h0
    subst hm0
    rw [runRows, List.cons_append, List.foldlM_cons, stepRow_start_zero _ _ _ _ _ ha,
      hmid m (List.mem_cons_self _ _)]
    simp only [Bool.false_eq_true, if_false, bind_ok_foldlM]
    rw [List.foldlM_append,
      foldl_stepRow_ignored isRust lang off res mid'
        (fun r hr => hmid r (List.mem_cons_of_mem _ hr)), bind_ok_foldlM,
      List.foldlM_cons, stepRow_ignored, he]
    simp only [if_true, bind_ok_foldlM]
    rfl

/-- Claim C3 witness. -/
theorem c3_zero_address_sequence_ignored_witness :
    runRows false 0 0 .Start Resolver.empty
        [{ address := 0, end_sequence := false, file := some ⟨none, ['f']⟩,
           line := some 3, column := .LeftEdge },
         { address := 9, end_sequence := true, file := some ⟨none, ['f']⟩,
           line := some 4, column := .LeftEdge },
         { address := 7, end_sequence := false, file := some ⟨none, ['g']⟩,
           line := some 6, column := .LeftEdge }] =
      runRows false 0 0 .Start Resolver.empty
        [{ address := 7, end_sequence := false, file := some ⟨none, ['g']⟩,
           line := some 6, column := .LeftEdge }] :=
  c3_zero_address_sequence_ignored false 0 0 Resolver.empty
    [{ address := 0, end_sequence := false, file := some ⟨none, ['f']⟩,
       line := some 3, column := .LeftEdge }]
    { address := 9, end_sequence := true, file := some ⟨none, ['f']⟩,
      line := some 4, column := .LeftEdge }
    [{ address := 7, end_sequence := false, file := some ⟨none, ['g']⟩,
       line := some 6, column := .LeftEdge }]
    { address := 0, end_sequence := false, file := some ⟨none, ['f']⟩,
      line := some 3, column := .LeftEdge }
    rfl rfl (by decide) rfl

theorem computePos_ok (isRust : Bool) (l : Nat) (col : ColumnType) (pos : Pos)
    (h : computePos isRust l col = .ok pos) :
    1 ≤ l ∧ pos.line = l - 1 ∧
    (col = ColumnType.LeftEdge → pos.column = 0) ∧
    ∀ c, col = ColumnType.Column c →
      1 ≤ c ∧ pos.column = c - 1 + (if isRust then 1 else 0) := by
  unfold computePos at h
  by_cases h1 : l = 0
  · rw [if_pos h1] at h
    exact absurd h (by simp)
  · rw [if_neg h1] at h
    by_cases h2 : u32Max ≤ l - 1
    · rw [if_pos h2] at h
      exact absurd h (by simp)
    · rw [if_neg h2] at h
      cases col with
      | LeftEdge =>
        simp only [Except.ok.injEq] at h
        subst h
        exact ⟨by omega, rfl, fun _ => rfl, fun c hc => by cases hc⟩
      | Column c =>
        dsimp only at h
        by_cases h3 : c = 0
        · rw [if_pos h3] at h
          exact absurd h (by simp)
        · rw [if_neg h3] at h
          by_cases h4 : u32Max ≤ c - 1 + (if isRust then 1 else 0)
          · rw [if_pos h4] at h
            exact absurd h (by simp)
          · rw [if_neg h4] at h
            simp only [Except.ok.injEq] at h
            subst h
            refine ⟨by omega, rfl, by simp, fun c' hc => ?_⟩
            injection hc with hcc
            subst hcc
            exact ⟨by omega, rfl⟩

/-- Claim C4: every row recorded from a `Normal` sequence is emitted with
zero-based line `reported_line - 1`, and zero-based column 0 for the
left-edge sentinel or `reported_column - 1` plus 1 exactly when the
owning unit's language identifier is the DWARF Rust language code; both
emitted coordinates are ≥ 0 and, before the language correction, strictly
below their 1-based DWARF-reported counterparts. -/
theorem c4_recorded_position (u : Unit') (off : Nat) (res res' : Resolver) (st' : FuncState)
    (row : Row) (f : FileInfo) (l : Nat)
    (hf : row.file = some f) (hl : row.line = some l)
    (hok : stepRow (unitLang u == dwLangRust) (unitLang u) off (.Normal, res) row
      = .ok (st', res')) :
    res'.locations = res.locations ++
      [{ addr := off + row.address,
         pos := { line := l - 1,
                  column :=
                    match row.column with
                    | .LeftEdge => 0
                    | .Column c => c - 1 + (if unitLang u = dwLangRust then 1 else 0) } }] ∧
    1 ≤ l ∧ 0 ≤ l - 1 ∧ l - 1 < l ∧
    (∀ c, row.column = .Column c → 1 ≤ c ∧ 0 ≤ c - 1 ∧ c - 1 < c) := by
  simp only [stepRow, hf, hl] at hok
  cases hcp : computePos (unitLang u == dwLangRust) l row.column with
  | error k => rw [hcp] at hok; exact absurd hok (by simp)
  | ok pos =>
    rw [hcp] at hok
    simp only [Except.ok.injEq, Prod.mk.injEq] at hok
    obtain ⟨h1, h2, h3, h4⟩ := computePos_ok _ _ _ _ hcp
    have hres : res' = recordRow (unitLang u) res (rowPath f.directory f.path_name)
        { addr := off + row.address, pos := pos } := hok.2.symm
    subst hres
    refine ⟨?_, h1, Nat.zero_le _, by omega, fun c hc => ⟨(h4 c hc).1, Nat.zero_le _, by
      have := (h4 c hc).1
      omega⟩⟩
    cases hcol : row.column with
    | LeftEdge =>
      have hpos : pos = ⟨l - 1, 0⟩ := by
        obtain ⟨pl, pc⟩ := pos
        simp only [Pos.mk.injEq]
        exact ⟨h2, h3 hcol⟩
      show res.locations ++ [⟨off + row.address, pos⟩] =
        res.locations ++ [⟨off + row.address, ⟨l - 1, 0⟩⟩]
      rw [hpos]
    | Column c =>
      have hpos : pos = ⟨l - 1, c - 1 + (if unitLang u = dwLangRust then 1 else 0)⟩ := by
        obtain ⟨pl, pc⟩ := pos
        simp only [Pos.mk.injEq]
        refine ⟨h2, ?_⟩
        have := (h4 c hcol).2
        simpa [beq_iff_eq] using this
      show res.locations ++ [⟨off + row.address, pos⟩] =
        res.locations ++
          [⟨off + row.address, ⟨l - 1, c - 1 + (if unitLang u = dwLangRust then 1 else 0)⟩⟩]
      rw [hpos]

/-- Claim C4 witness. -/
theorem c4_recorded_position_witness :
    (recordRow 28 Resolver.empty (rowPath (some ['d']) ['f']) ⟨105, ⟨6, 3⟩⟩).locations =
      Resolver.empty.locations ++
        [⟨100 + 5, ⟨7 - 1, 3 - 1 + (if unitLang ⟨some 28, none⟩ = dwLangRust then 1 else 0)⟩⟩] ∧
    1 ≤ 7 ∧ 0 ≤ 7 - 1 ∧ 7 - 1 < 7 ∧
    (∀ c, ColumnType.Column 3 = ColumnType.Column c → 1 ≤ c ∧ 0 ≤ c - 1 ∧ c - 1 < c) :=
  c4_recorded_position ⟨some 28, none⟩ 100 Resolver.empty
    (recordRow 28 Resolver.empty (rowPath (some ['d']) ['f']) ⟨105, ⟨6, 3⟩⟩)
    .Normal
    { address := 5, end_sequence := false, file := some ⟨some ['d'], ['f']⟩,
      line := some 7, column := .Column 3 }
    ⟨some ['d'], ['f']⟩ 7 rfl rfl rfl

/-- Claim C6: after the post-pass every per-file table is sorted by `Pos`
(line first, then column) ascending with no two surviving entries sharing
the same position, and the grouped output's per-file `lines` arrays are
the per-file tables flattened in exactly that order. -/
theorem c6_per_file_sorted_dedup_output_order (res : Resolver) :
    ((postPass res).locations_by_filename.Forall fun kv =>
      List.Pairwise (fun x y => posLe x.pos y.pos ∧ x.pos ≠ y.pos) kv.2.entries) ∧
    sourceFiles (postPass res) = (postPass res).locations_by_filename.map fun kv =>
      ⟨kv.1, kv.2.language, kv.2.entries.map fun loc => [loc.addr, loc.pos.line, loc.pos.column]⟩ := by
  constructor
  · rw [List.forall_iff_forall_mem]
    intro kv hkv
    rw [postPass] at hkv
    simp only [List.mem_map] at hkv
    obtain ⟨kv0, _, rfl⟩ := hkv
    have hs : List.Pairwise (fun x y : LocationEntry => posLe x.pos y.pos)
        (List.insertionSort entryPosLe kv0.2.entries) :=
      List.sorted_insertionSort entryPosLe kv0.2.entries
    exact pairwise_dedupByKey (fun e : LocationEntry => e.pos) posLe
      (fun _ _ _ h1 h2 => posLe_trans h1 h2)
      (fun _ _ h1 h2 => posLe_antisymm h1 h2) _ hs
  · rfl

/-- Claim C8: `Path::push` semantics — a fragment starting with `/` or
containing `://` replaces the whole accumulated path; otherwise it is
appended with exactly one `/` separator, the separator being added only
when the accumulated path does not already end with `/`; in particular
pushing `/c/d` onto `/a/b` yields `/c/d`. -/
theorem c8_push_semantics (p1 p2 : List Char) :
    ((['/'].isPrefixOf p2 = true ∨ hasSub [':', '/', '/'] p2 = true) → pathPush p1 p2 = p2) ∧
    (['/'].isPrefixOf p2 = false → hasSub [':', '/', '/'] p2 = false →
      p1.getLast? = some '/' → pathPush p1 p2 = p1 ++ p2) ∧
    (['/'].isPrefixOf p2 = false → hasSub [':', '/', '/'] p2 = false →
      p1.getLast? ≠ some '/' → pathPush p1 p2 = p1 ++ '/' :: p2) ∧
    pathPush ['/', 'a', '/', 'b'] ['/', 'c', '/', 'd'] = ['/', 'c', '/', 'd'] := by
  refine ⟨?_, ?_, ?_, by decide⟩
  · intro h
    rcases h with h | h
    · simp [pathPush, h]
    · simp [pathPush, h]
  · intro h1 h2 h3
    simp [pathPush, h1, h2, h3]
  · intro h1 h2 h3
    simp [pathPush, h1, h2, h3]

/-- Claim C8 witness. -/
theorem c8_push_semantics_witness :
    pathPush ['a'] ['/', 'b'] = ['/', 'b'] ∧
    pathPush ['a', '/'] ['b'] = ['a', '/'] ++ ['b'] ∧
    pathPush ['a'] ['b'] = ['a'] ++ '/' :: ['b'] :=
  ⟨(c8_push_semantics ['a'] ['/', 'b']).1 (Or.inl (by decide)),
   (c8_push_semantics ['a', '/'] ['b']).2.1 (by decide) (by decide) (by decide),
   (c8_push_semantics ['a'] ['b']).2.2.1 (by decide) (by decide) (by decide)⟩

theorem backslash_not_mem_replaceSingle : ∀ s, '\\' ∉ replaceSingle s
  | [] => by simp [replaceSingle]
  | c :: s => by
    simp only [replaceSingle, List.mem_cons, not_or]
    refine ⟨?_, backslash_not_mem_replaceSingle s⟩
    by_cases hc : c = '\\'
    · rw [if_pos hc]
      decide
    · rw [if_neg hc]
      exact fun h => hc h.symm

theorem replaceSingle_of_not_mem : ∀ s, '\\' ∉ s → replaceSingle s = s
  | [], _ => rfl
  | c :: s, h => by
    have hc : ¬(c = '\\') := fun e => h (e ▸ List.mem_cons_self c s)
    rw [replaceSingle, if_neg hc,
      replaceSingle_of_not_mem s (fun hm => h (List.mem_cons_of_mem _ hm))]

theorem replaceDouble_of_not_mem : ∀ s, '\\' ∉ s → replaceDouble s = s
  | [], _ => rfl
  | [_], _ => rfl
  | c :: c2 :: s, h => by
    have hc : ¬(c = '\\' ∧ c2 = '\\') := fun e => h (e.1 ▸ List.mem_cons_self c (c2 :: s))
    rw [replaceDouble, if_neg hc,
      replaceDouble_of_not_mem (c2 :: s) (fun hm => h (List.mem_cons_of_mem _ hm))]

theorem pathNew_no_backslash (s : List Char) : '\\' ∉ pathNew s :=
  backslash_not_mem_replaceSingle _

theorem pathNew_of_no_backslash (s : List Char) (h : '\\' ∉ s) : pathNew s = s := by
  unfold pathNew
  rw [replaceDouble_of_not_mem s h, replaceSingle_of_not_mem s h]

theorem pathPush_no_backslash (p f : List Char) (hp : '\\' ∉ p) (hf : '\\' ∉ f) :
    '\\' ∉ pathPush p f := by
  unfold pathPush
  split
  · exact hf
  · split
    · intro hm
      rcases List.mem_append.mp hm with h | h
      · exact hp h
      · exact hf h
    · intro hm
      rcases List.mem_append.mp hm with h | h
      · exact hp h
      · rcases List.mem_cons.mp h with h | h
        · exact absurd h (by decide)
        · exact hf h

/-- Claim C9 counterexample: `Path::push` appends fragments raw, without
backslash normalization, so pushing a fragment containing `\` produces a
string that re-normalization (`Path::new`) changes: the claim fails for
the join sequence seeded with `.` and pushing the fragment containing a
backslash. -/
theorem c9_counterexample_backslash_fragment :
    pathNew (pathPush (pathNew ['.']) ['a', '\\', 'b']) ≠
      pathPush (pathNew ['.']) ['a', '\\', 'b'] := by decide

/-- Claim C9 (amended): re-normalization is the identity on every path
built by constructing a path and performing any sequence of joins whose
pushed fragments contain no backslash (construction itself removes all
backslashes from the seed; only a pushed fragment can re-introduce
one). -/
theorem c9_renormalization_idempotent (seed : List Char) (frags : List (List Char))
    (h : ∀ f ∈ frags, '\\' ∉ f) :
    pathNew (frags.foldl pathPush (pathNew seed)) = frags.foldl pathPush (pathNew seed) := by
  have inv : ∀ (fs : List (List Char)) (acc : List Char), '\\' ∉ acc →
      (∀ f ∈ fs, '\\' ∉ f) → '\\' ∉ fs.foldl pathPush acc := by
    intro fs
    induction fs with
    | nil => exact fun acc ha _ => ha
    | cons g gs ih =>
      intro acc ha hg
      rw [List.foldl_cons]
      exact ih _ (pathPush_no_backslash acc g ha (hg g (List.mem_cons_self _ _)))
        (fun f hf => hg f (List.mem_cons_of_mem _ hf))
  exact pathNew_of_no_backslash _ (inv frags (pathNew seed) (pathNew_no_backslash seed) h)

/-- Claim C9 witness. -/
theorem c9_renormalization_idempotent_witness :
    pathNew ([['e', 't', 'c'], ['p', 'w']].foldl pathPush (pathNew ['/'])) =
      [['e', 't', 'c'], ['p', 'w']].foldl pathPush (pathNew ['/']) :=
  c9_renormalization_idempotent ['/'] [['e', 't', 'c'], ['p', 'w']] (by decide)

theorem lookupFile_updateFile_language :
    ∀ (m : List (List Char × FileEntries)) (k : List Char) (lang : Nat) (loc : LocationEntry)
      (k' : List Char) (fe' : FileEntries),
      lookupFile (updateFile m k lang loc) k' = some fe' →
      (∃ fe, lookupFile m k' = some fe ∧ fe.language = fe'.language) ∨ fe'.language = lang
  | [], k, lang, loc, k', fe', h => by
    rw [updateFile, lookupFile] at h
    split at h
    · simp only [Option.some.injEq] at h
      subst h
      exact Or.inr rfl
    · cases h
  | kv :: rest, k, lang, loc, k', fe', h => by
    rw [updateFile] at h
    split at h
    · rename_i hk
      rw [lookupFile] at h
      split at h
      · rename_i hk'
        simp only [Option.some.injEq] at h
        subst h
        exact Or.inl ⟨kv.2, by rw [lookupFile, if_pos hk'], rfl⟩
      · rename_i hk'
        exact Or.inl ⟨fe', by rw [lookupFile, if_neg hk']; exact h, rfl⟩
    · rename_i hk
      rw [lookupFile] at h
      split at h
      · rename_i hk'
        simp only [Option.some.injEq] at h
        subst h
        exact Or.inl ⟨kv.2, by rw [lookupFile, if_pos hk'], rfl⟩
      · rename_i hk'
        rcases lookupFile_updateFile_language rest k lang loc k' fe' h with ⟨fe, hfe, hl⟩ | hl
        · exact Or.inl ⟨fe, by rw [lookupFile, if_neg hk']; exact hfe, hl⟩
        · exact Or.inr hl

theorem stepRow_resolver_cases (isRust : Bool) (lang off : Nat) (st st' : FuncState)
    (res res' : Resolver) (row : Row)
    (h : stepRow isRust lang off (st, res) row = .ok (st', res')) :
    res' = res ∨ ∃ key loc, res' = recordRow lang res key loc := by
  have hfile : ∀ (st2 : FuncState),
      (match row.file with
        | none => Except.ok (st2, res)
        | some f =>
          match row.line with
          | none => Except.ok (st2, res)
          | some l =>
            match computePos isRust l row.column with
            | .error k => Except.error k
            | .ok pos =>
              Except.ok (if row.end_sequence then FuncState.Start else st2,
                recordRow lang res (rowPath f.directory f.path_name)
                  { addr := off + row.address, pos := pos })) = .ok (st', res') →
      res' = res ∨ ∃ key loc, res' = recordRow lang res key loc := by
    intro st2 h2
    cases hf : row.file with
    | none =>
      rw [hf] at h2
      simp only [Except.ok.injEq, Prod.mk.injEq] at h2
      exact Or.inl h2.2.symm
    | some f =>
      rw [hf] at h2
      dsimp only at h2
      cases hl : row.line with
      | none =>
        rw [hl] at h2
        simp only [Except.ok.injEq, Prod.mk.injEq] at h2
        exact Or.inl h2.2.symm
      | some l =>
        rw [hl] at h2
        dsimp only at h2
        cases hcp : computePos isRust l row.column with
        | error k2 => rw [hcp] at h2; exact absurd h2 (by simp)
        | ok pos =>
          rw [hcp] at h2
          simp only [Except.ok.injEq, Prod.mk.injEq] at h2
          exact Or.inr ⟨_, _, h2.2.symm⟩
  cases st with
  | Ignored =>
    simp only [stepRow, Except.ok.injEq, Prod.mk.injEq] at h
    exact Or.inl h.2.symm
  | Normal => exact hfile FuncState.Normal h
  | Start =>
    by_cases haddr : row.address = 0
    · simp only [stepRow, if_pos haddr, Except.ok.injEq, Prod.mk.injEq] at h
      exact Or.inl h.2.symm
    · simp only [stepRow, if_neg haddr] at h
      exact hfile FuncState.Normal h

theorem stepRow_language_invariant (isRust : Bool) (lang off : Nat) (st st' : FuncState)
    (res res' : Resolver) (row : Row)
    (h : stepRow isRust lang off (st, res) row = .ok (st', res')) (k : List Char)
    (fe' : FileEntries) (hl : lookupFile res'.locations_by_filename k = some fe') :
    (∃ fe, lookupFile res.locations_by_filename k = some fe ∧ fe.language = fe'.language) ∨
    fe'.language = lang := by
  rcases stepRow_resolver_cases isRust lang off st st' res res' row h with heq | ⟨key, loc, heq⟩
  · subst heq
    exact Or.inl ⟨fe', hl, rfl⟩
  · subst heq
    exact lookupFile_updateFile_language res.locations_by_filename key lang loc k fe' hl

theorem foldlM_stepRow_language_invariant (isRust : Bool) (lang off : Nat) :
    ∀ (rows : List Row) (st : FuncState) (res : Resolver) (out : FuncState × Resolver),
      List.foldlM (stepRow isRust lang off) (st, res) rows = .ok out →
      ∀ k fe', lookupFile out.2.locations_by_filename k = some fe' →
        (∃ fe, lookupFile res.locations_by_filename k = some fe ∧
          fe.language = fe'.language) ∨ fe'.language = lang
  | [], st, res, out, h, k, fe', hl => by
    simp only [List.foldlM_nil, pure, Except.pure, Except.ok.injEq] at h
    subst h
    exact Or.inl ⟨fe', hl, rfl⟩
  | r :: rows, st, res, out, h, k, fe', hl => by
    rw [List.foldlM_cons] at h
    cases hstep : stepRow isRust lang off (st, res) r with
    | error k2 =>
      rw [hstep] at h
      exact absurd h (by simp [Bind.bind, Except.bind])
    | ok s1 =>
      rw [hstep, bind_ok_foldlM] at h
      obtain ⟨st1, res1⟩ := s1
      rcases foldlM_stepRow_language_invariant isRust lang off rows st1 res1 out h k fe' hl
        with ⟨fe, hfe, hlang⟩ | hlang
      · rcases stepRow_language_invariant isRust lang off st st1 res res1 r hstep k fe hfe
          with ⟨fe0, hfe0, hl0⟩ | hl0
        · exact Or.inl ⟨fe0, hfe0, hl0.trans hlang⟩
        · exact Or.inr (hlang ▸ hl0)
      · exact Or.inr hlang

/-- Claim C10: for a unit whose root DIE has no `DW_AT_language`
attribute (or whose value is not a language code), the language
identifier is 0: the unit is processed with `is_rust = false` and
`lang = 0` (so the one-column Rust correction is never applied to its
rows), and every file entry first created while processing it records
language 0 (pre-existing file entries keep their language). -/
theorem c10_no_language_attribute (off : Nat) (res : Resolver) (u : Unit')
    (h : u.langAttr = none) :
    unitLang u = 0 ∧
    runUnit off res u = (match u.lineProgram with
      | none => .ok res
      | some rows =>
        match runRows false 0 off .Start res rows with
        | .error k => .error k
        | .ok s => .ok s.2) ∧
    (∀ res', runUnit off res u = .ok res' →
      ∀ k fe', lookupFile res'.locations_by_filename k = some fe' →
        (∃ fe, lookupFile res.locations_by_filename k = some fe ∧
          fe.language = fe'.language) ∨ fe'.language = 0) := by
  have h0 : unitLang u = 0 := by rw [unitLang, h]
  refine ⟨h0, ?_, ?_⟩
  · simp only [runUnit, h0]
    rfl
  · intro res' hok k fe' hl
    rw [runUnit] at hok
    cases hlp : u.lineProgram with
    | none =>
      rw [hlp] at hok
      simp only [Except.ok.injEq] at hok
      subst hok
      exact Or.inl ⟨fe', hl, rfl⟩
    | some rows =>
      rw [hlp] at hok
      dsimp only at hok
      cases hrr : runRows (unitLang u == dwLangRust) (unitLang u) off .Start res rows with
      | error k2 =>
        rw [hrr] at hok
        exact absurd hok (by simp)
      | ok s =>
        rw [hrr] at hok
        simp only [Except.ok.injEq] at hok
        subst hok
        have hres := foldlM_stepRow_language_invariant (unitLang u == dwLangRust)
          (unitLang u) off rows .Start res s hrr k fe' hl
        rw [h0] at hres
        exact hres

/-- Claim C10 witness. -/
theorem c10_no_language_attribute_witness :
    unitLang ⟨none, none⟩ = 0 ∧
    runUnit 0 Resolver.empty ⟨none, none⟩ = .ok Resolver.empty :=
  ⟨(c10_no_language_attribute 0 Resolver.empty ⟨none, none⟩ rfl).1,
   (c10_no_language_attribute 0 Resolver.empty ⟨none, none⟩ rfl).2.1⟩

end WD
